import Mathlib

/-!
Verification of the Wiedemann tower arithmetic engine.

This file shallowly embeds the repository (an interactive calculator
for a tower of binary fields) and proves or refutes the frozen claims
about it.

Embedding conventions:

* A field element is a `List Bool` (index 0 = first bit of the Rust
  `Vec<bool>`).
* Rust panics (failed `assert!` / `assert_eq!`, and the slicing panics
  of `copy_from_slice`) are modelled as `Option.none`; a successful
  computation returns `Option.some`.  The two length-zero inputs on
  which the Rust `mul` and `rot` recurse forever (stack overflow) are
  also mapped to `none`; no claim depends on them.
* The recoverable `Result<Vec<bool>, String>` values of the expression
  evaluator are modelled as `Except String`; its calls into the fallible
  core keep the outer `Option`, so a top-level `none` means the process
  dies with a panic rather than reporting an error string.
-/

namespace Wiedemann

/-- Embedding of `add` from src/arithmetic.rs: bitwise XOR of two
equal-length bitstrings; the `assert_eq!` on the lengths is `none`. -/
def add (left right : List Bool) : Option (List Bool) :=
  if left.length = right.length then
    some (List.zipWith Bool.xor left right)
  else
    none

/-- Embedding of `rot` from src/arithmetic.rs: multiplication by the
image of the indeterminate of the top-most quadratic extension.  The
`assert_eq!(n % 2, 0)` is `none`; the length-0 input, on which the Rust
code recurses forever, is also mapped to `none`. -/
def rot (operand : List Bool) : Option (List Bool) :=
  if operand.length = 1 then
    some operand
  else if operand.length % 2 = 0 then
    if h0 : operand.length = 0 then
      none
    else
      let halfn := operand.length / 2
      let low_bits := operand.take halfn
      let high_bits := operand.drop halfn
      do
        let r ← rot high_bits
        let result_high_bits ← add low_bits r
        if high_bits.length < halfn ∨ result_high_bits.length < halfn then
          none
        else
          pure (high_bits.take halfn ++ result_high_bits.take halfn)
  else
    none
termination_by operand.length
decreasing_by
  simp only [List.length_drop]
  omega

/-- Embedding of `mul` from src/arithmetic.rs: recursive tower-field
multiplication.  Length mismatch and odd length are `none` (panics);
the length-0 input, on which the Rust code recurses forever, is also
mapped to `none`. -/
def mul (left right : List Bool) : Option (List Bool) :=
  if left.length = right.length then
    if left.length = 1 then
      some [left.headI && right.headI]
    else if left.length % 2 = 0 then
      if h0 : left.length = 0 then
        none
      else
        let halfn := left.length / 2
        let a := left.take halfn
        let b := left.drop halfn
        let c := right.take halfn
        let d := right.drop halfn
        do
          let ac ← mul a c
          let ad ← mul a d
          let bc ← mul b c
          let bd ← mul b d
          let result_low_bits ← add ac bd
          let r ← rot bd
          let m ← add bc r
          let result_high_bits ← add ad m
          if result_low_bits.length < halfn ∨ result_high_bits.length < halfn then
            none
          else
            pure (result_low_bits.take halfn ++ result_high_bits.take halfn)
    else
      none
  else
    none
termination_by left.length
decreasing_by
  all_goals simp only [List.length_take, List.length_drop]
  all_goals omega

theorem add_eq_some {x y z : List Bool} (h : add x y = some z) :
    x.length = y.length ∧ z = List.zipWith Bool.xor x y := by
  unfold add at h
  split at h
  · exact ⟨by assumption, (Option.some.injEq _ _ ▸ h).symm⟩
  · exact absurd h (by simp)

theorem add_length {x y z : List Bool} (h : add x y = some z) :
    z.length = x.length := by
  obtain ⟨h1, h2⟩ := add_eq_some h
  simp [h2, h1]

theorem mul_length {x y z : List Bool} (h : mul x y = some z) :
    z.length = x.length := by
  unfold mul at h
  split at h
  case isFalse => exact absurd h (by simp)
  case isTrue heq =>
    split at h
    case isTrue h1 =>
      simp only [Option.some.injEq] at h
      simp [← h, h1]
    case isFalse h1 =>
      split at h
      case isFalse => exact absurd h (by simp)
      case isTrue h2 =>
        split at h
        case isTrue => exact absurd h (by simp)
        case isFalse h0 =>
          simp only [Option.bind_eq_bind, Option.bind_eq_some] at h
          obtain ⟨ac, _, ad, _, bc, _, bd, _, lo, hlo, r, _, m, _, hi, hhi, hfin⟩ := h
          split at hfin
          · exact absurd hfin (by simp)
          · rename_i hguard
            simp only [Option.pure_def, Option.some.injEq] at hfin
            push_neg at hguard
            subst hfin
            simp only [List.length_append, List.length_take]
            omega

/-- Embedding of `inv` from src/arithmetic.rs: Fan--Paar recursive
inversion.  The `assert!` that the operand is nonzero and the
`assert_eq!(n % 2, 0)` are `none` (panics). -/
def inv (operand : List Bool) : Option (List Bool) :=
  if operand.any id = true then
    if operand.length = 1 then
      some operand
    else if operand.length % 2 = 0 then
      let halfn := operand.length / 2
      let low_bits := operand.take halfn
      let high_bits := operand.drop halfn
      match rot high_bits with
      | none => none
      | some rot_high_bits =>
        match add low_bits rot_high_bits with
        | none => none
        | some s =>
          match h3 : mul low_bits s with
          | none => none
          | some p1 =>
            match mul high_bits high_bits with
            | none => none
            | some p2 =>
              match h5 : add p1 p2 with
              | none => none
              | some delta =>
                match inv delta with
                | none => none
                | some delta_inv =>
                  match mul delta_inv high_bits with
                  | none => none
                  | some result_high_bits =>
                    match mul delta_inv s with
                    | none => none
                    | some result_low_bits =>
                      if result_low_bits.length < halfn ∨
                          result_high_bits.length < halfn then
                        none
                      else
                        some (result_low_bits.take halfn ++
                          result_high_bits.take halfn)
    else
      none
  else
    none
termination_by operand.length
decreasing_by
  have hd : delta.length = low_bits.length := by
    rw [add_length h5, mul_length h3]
  have hne : operand ≠ [] := by
    rename_i hany _ _
    intro hnil
    simp [hnil] at hany
  have hlen : 0 < operand.length := List.length_pos.mpr hne
  have hlow : low_bits.length = operand.length / 2 := by
    unfold_let low_bits halfn
    simp only [List.length_take]
    omega
  simp only [hd, hlow]
  omega

/-! ## Embedding of the expression evaluator (src/parser.rs)

The recursive-descent evaluator is modelled with the character list and
the cursor position passed explicitly (the Rust struct fields `chars`
and `pos`), and with a fuel parameter that makes the mutual recursion
structural; fuel exhaustion is reported as a distinguished recoverable
error, so a `none` result means exactly that a call into the core
panicked.  Quotes inside the Rust error messages are dropped; no claim
inspects the message text. -/

/-- Modelling of `usize::is_power_of_two` (exactly one bit set, i.e. the
number is `2 ^ k` for some `k`; any such `k` is at most `n`). -/
def isPow2 (n : Nat) : Bool :=
  (List.range (n + 1)).any (fun k => n == 2 ^ k)

/-- Modelling of `usize::ilog2` for positive arguments: the number of
exponents `e ≥ 1` with `2 ^ e ≤ n`, which is the floor of log2. -/
def ilog2 (n : Nat) : Nat :=
  ((List.range (n + 1)).filter (fun k => 2 ^ (k + 1) ≤ n)).length

/-- Embedding of `Parser::check_arguments`: reject lengths that are not
powers of two, then pad both operands with trailing `false` bits up to
the larger length. -/
def checkArguments (lhs rhs : List Bool) :
    Except String (List Bool × List Bool) :=
  if isPow2 lhs.length = false then
    Except.error ("Bitstrings must be of length 2^i, but LHS has length "
      ++ toString lhs.length)
  else if isPow2 rhs.length = false then
    Except.error ("Bitstrings must be of length 2^i, but RHS has length "
      ++ toString rhs.length)
  else
    let maxLog := max (ilog2 lhs.length) (ilog2 rhs.length)
    let target := 2 ^ maxLog
    Except.ok (lhs ++ List.replicate (target - lhs.length) false,
      rhs ++ List.replicate (target - rhs.length) false)

/-- Embedding of `Parser::peek_char`. -/
def peekChar (cs : List Char) (pos : Nat) : Option Char :=
  cs[pos]?

/-- Number of leading whitespace characters of a suffix. -/
def wsCount : List Char → Nat
  | [] => 0
  | c :: rest => if c.isWhitespace then wsCount rest + 1 else 0

/-- Embedding of `Parser::skip_whitespace`: the cursor after skipping
whitespace from `pos`. -/
def skipWs (cs : List Char) (pos : Nat) : Nat :=
  pos + wsCount (cs.drop pos)

/-- The bitstring literal read by the `'0' | '1'` loop of
`Parser::parse_factor`, starting at the given suffix. -/
def readBits : List Char → List Bool
  | [] => []
  | c :: rest =>
    if c == '0' || c == '1' then (c == '1') :: readBits rest else []

/-- Result of a parse routine: `none` is a panic inside the core;
`some (Except.error _)` is the recoverable `Err` channel of the Rust
`Result`; `some (Except.ok (v, pos))` returns the value and the new
cursor. -/
def PRes : Type := Option (Except String (List Bool × Nat))

mutual

/-- Embedding of `Parser::parse_expression`: term { '+' term }. -/
def parseExpression (fuel : Nat) (cs : List Char) (pos : Nat)
    (prev : Option (List Bool)) : PRes :=
  match fuel with
  | 0 => some (Except.error "fuel exhausted")
  | fuel + 1 =>
    match parseTerm fuel cs pos prev with
    | none => none
    | some (Except.error e) => some (Except.error e)
    | some (Except.ok (v, p)) => exprLoop fuel cs p prev v
termination_by structural fuel

/-- The `loop` inside `Parser::parse_expression`. -/
def exprLoop (fuel : Nat) (cs : List Char) (pos : Nat)
    (prev : Option (List Bool)) (value : List Bool) : PRes :=
  match fuel with
  | 0 => some (Except.error "fuel exhausted")
  | fuel + 1 =>
    let p := skipWs cs pos
    if peekChar cs p = some '+' then
      match parseTerm fuel cs (p + 1) prev with
      | none => none
      | some (Except.error e) => some (Except.error e)
      | some (Except.ok (rhs, p2)) =>
        match checkArguments value rhs with
        | Except.error e => some (Except.error e)
        | Except.ok (l, r) =>
          match add l r with
          | none => none
          | some v2 => exprLoop fuel cs p2 prev v2
    else
      some (Except.ok (value, p))
termination_by structural fuel

/-- Embedding of `Parser::parse_term`: factor { ('*' | '/') factor }. -/
def parseTerm (fuel : Nat) (cs : List Char) (pos : Nat)
    (prev : Option (List Bool)) : PRes :=
  match fuel with
  | 0 => some (Except.error "fuel exhausted")
  | fuel + 1 =>
    match parseFactor fuel cs pos prev with
    | none => none
    | some (Except.error e) => some (Except.error e)
    | some (Except.ok (v, p)) => termLoop fuel cs p prev v
termination_by structural fuel

/-- The `loop` inside `Parser::parse_term`.  In the `'/'` branch the
divisor is passed straight to `inv`, whose zero assertion is the `none`
(panic) outcome. -/
def termLoop (fuel : Nat) (cs : List Char) (pos : Nat)
    (prev : Option (List Bool)) (value : List Bool) : PRes :=
  match fuel with
  | 0 => some (Except.error "fuel exhausted")
  | fuel + 1 =>
    let p := skipWs cs pos
    if peekChar cs p = some '*' then
      match parseFactor fuel cs (p + 1) prev with
      | none => none
      | some (Except.error e) => some (Except.error e)
      | some (Except.ok (rhs, p2)) =>
        match checkArguments value rhs with
        | Except.error e => some (Except.error e)
        | Except.ok (l, r) =>
          match mul l r with
          | none => none
          | some v2 => termLoop fuel cs p2 prev v2
    else if peekChar cs p = some '/' then
      match parseFactor fuel cs (p + 1) prev with
      | none => none
      | some (Except.error e) => some (Except.error e)
      | some (Except.ok (rhs, p2)) =>
        match checkArguments value rhs with
        | Except.error e => some (Except.error e)
        | Except.ok (l, r) =>
          match inv r with
          | none => none
          | some ir =>
            match mul l ir with
            | none => none
            | some v2 => termLoop fuel cs p2 prev v2
    else
      some (Except.ok (value, p))
termination_by structural fuel

/-- Embedding of `Parser::parse_factor`: bitstring, previous result, or
parenthesised expression. -/
def parseFactor (fuel : Nat) (cs : List Char) (pos : Nat)
    (prev : Option (List Bool)) : PRes :=
  match fuel with
  | 0 => some (Except.error "fuel exhausted")
  | fuel + 1 =>
    let p := skipWs cs pos
    match peekChar cs p with
    | some '(' =>
      match parseExpression fuel cs (p + 1) prev with
      | none => none
      | some (Except.error e) => some (Except.error e)
      | some (Except.ok (v, p2)) =>
        let p3 := skipWs cs p2
        if peekChar cs p3 = some ')' then
          some (Except.ok (v, p3 + 1))
        else
          some (Except.error "Expected )")
    | some '_' =>
      match prev with
      | some prevVal => some (Except.ok (prevVal, p + 1))
      | none => some (Except.error "No previous result available")
    | some c =>
      if c == '0' || c == '1' then
        let bits := readBits (cs.drop p)
        if bits.isEmpty then
          some (Except.error "Expected bitstring")
        else
          some (Except.ok (bits, p + bits.length))
      else
        some (Except.error ("Unexpected character " ++ String.mk [c]))
    | none => some (Except.error "Unexpected end of input")
termination_by structural fuel

end

/-! ## Structurally indexed view of the tower

`BT k` is a full binary tree of depth `k` with Boolean leaves: the
length-`2 ^ k` bitstrings on which the core recursions operate, with
the low/high split made structural.  The operations `addB`, `rotB`,
`mulB`, `invB` are the recursions of src/arithmetic.rs transcribed onto
this representation; the bridge lemmas below prove that the list-level
functions agree with them on every valid input, so every algebraic fact
can be established here and transported. -/

inductive BT : Nat → Type
  | leaf : Bool → BT 0
  | node : {k : Nat} → BT k → BT k → BT (k + 1)
deriving DecidableEq

namespace BT

/-- `add` on the tree view: pointwise XOR. -/
def addB : {k : Nat} → BT k → BT k → BT k
  | _, leaf a, leaf b => leaf (Bool.xor a b)
  | _, node a b, node c d => node (addB a c) (addB b d)

/-- `rot` on the tree view. -/
def rotB : {k : Nat} → BT k → BT k
  | _, leaf b => leaf b
  | _, node a b => node b (addB a (rotB b))

/-- `mul` on the tree view. -/
def mulB : {k : Nat} → BT k → BT k → BT k
  | _, leaf a, leaf b => leaf (a && b)
  | _, node a b, node c d =>
    node (addB (mulB a c) (mulB b d))
      (addB (mulB a d) (addB (mulB b c) (rotB (mulB b d))))

/-- `inv` on the tree view (total; the zero assertion of the source is
dealt with in the bridge lemma, which requires a nonzero operand). -/
def invB : {k : Nat} → BT k → BT k
  | 0, t => t
  | _ + 1, node a b =>
    let s := addB a (rotB b)
    let delta := addB (mulB a s) (mulB b b)
    let dinv := invB delta
    node (mulB dinv s) (mulB dinv b)

/-- The zero element `[0, 0, …, 0]`. -/
def zeroB : {k : Nat} → BT k
  | 0 => leaf false
  | _ + 1 => node zeroB zeroB

/-- The multiplicative identity `[1, 0, …, 0]`. -/
def oneB : {k : Nat} → BT k
  | 0 => leaf true
  | _ + 1 => node oneB zeroB

/-- The generator adjoined at the top level: `rotB oneB`. -/
def gB : {k : Nat} → BT k
  | 0 => leaf true
  | _ + 1 => node zeroB oneB

/-- Conjugation over the next-lower field: the nontrivial automorphism
`low + high·g ↦ (low + rot high) + high·g` fixing the subfield. -/
def conjB : {k : Nat} → BT k → BT k
  | _, leaf b => leaf b
  | _, node a b => node (addB a (rotB b)) b

/-- Flatten a tree back to the bitstring it stands for. -/
def toList : {k : Nat} → BT k → List Bool
  | _, leaf b => [b]
  | _, node a b => toList a ++ toList b

/-- Build the depth-`k` tree of a length-`2 ^ k` bitstring. -/
def ofList : (k : Nat) → List Bool → BT k
  | 0, l => leaf l.headI
  | k + 1, l => node (ofList k (l.take (2 ^ k))) (ofList k (l.drop (2 ^ k)))

/-- Iterated sum, used only to fill the `nsmul`/`zsmul` fields of the
ring structure. -/
def nsmulB : {k : Nat} → Nat → BT k → BT k
  | _, 0, _ => zeroB
  | _, n + 1, a => addB (nsmulB n a) a

/-- The ring laws of one tower level, phrased on the raw operations so
that they can be established by recursion on the level. -/
structure BTFacts (k : Nat) : Prop where
  add_assoc : ∀ a b c : BT k, addB (addB a b) c = addB a (addB b c)
  add_comm : ∀ a b : BT k, addB a b = addB b a
  zero_add : ∀ a : BT k, addB zeroB a = a
  add_self : ∀ a : BT k, addB a a = zeroB
  mul_assoc : ∀ a b c : BT k, mulB (mulB a b) c = mulB a (mulB b c)
  mul_comm : ∀ a b : BT k, mulB a b = mulB b a
  one_mul : ∀ a : BT k, mulB oneB a = a
  zero_mul : ∀ a : BT k, mulB zeroB a = zeroB
  left_distrib : ∀ a b c : BT k,
    mulB a (addB b c) = addB (mulB a b) (mulB a c)
  hrot : ∀ a : BT k, rotB a = mulB gB a

/-- Package the laws of one level as a commutative ring (characteristic
two, so negation is the identity). -/
def mkRing (k : Nat) (P : BTFacts k) : CommRing (BT k) where
  add := addB
  add_assoc := P.add_assoc
  zero := zeroB
  zero_add := P.zero_add
  add_zero := fun a => (P.add_comm a zeroB).trans (P.zero_add a)
  add_comm := P.add_comm
  mul := mulB
  mul_assoc := P.mul_assoc
  one := oneB
  one_mul := P.one_mul
  mul_one := fun a => (P.mul_comm a oneB).trans (P.one_mul a)
  left_distrib := P.left_distrib
  right_distrib := fun a b c => by
    show mulB (addB a b) c = addB (mulB a c) (mulB b c)
    rw [P.mul_comm, P.left_distrib, P.mul_comm a c, P.mul_comm b c]
  nsmul := fun n a => nsmulB n a
  zsmul := fun i a => nsmulB i.natAbs a
  zero_mul := P.zero_mul
  mul_zero := fun a => (P.mul_comm a zeroB).trans (P.zero_mul a)
  mul_comm := P.mul_comm
  neg := id
  neg_add_cancel := P.add_self

/-- The ring laws hold at every level.  The recursion makes the ring
structure of level `k` available (as a `CommRing` instance, hence the
`ring` tactic) while proving the laws of level `k + 1`. -/
def btFacts : (k : Nat) → BTFacts k
  | 0 =>
    { add_assoc := by
        intro a b c
        cases a with | leaf x =>
        cases b with | leaf y =>
        cases c with | leaf z =>
        cases x <;> cases y <;> cases z <;> rfl
      add_comm := by
        intro a b
        cases a with | leaf x =>
        cases b with | leaf y =>
        cases x <;> cases y <;> rfl
      zero_add := by
        intro a
        cases a with | leaf x =>
        cases x <;> rfl
      add_self := by
        intro a
        cases a with | leaf x =>
        cases x <;> rfl
      mul_assoc := by
        intro a b c
        cases a with | leaf x =>
        cases b with | leaf y =>
        cases c with | leaf z =>
        cases x <;> cases y <;> cases z <;> rfl
      mul_comm := by
        intro a b
        cases a with | leaf x =>
        cases b with | leaf y =>
        cases x <;> cases y <;> rfl
      one_mul := by
        intro a
        cases a with | leaf x =>
        cases x <;> rfl
      zero_mul := by
        intro a
        cases a with | leaf x =>
        cases x <;> rfl
      left_distrib := by
        intro a b c
        cases a with | leaf x =>
        cases b with | leaf y =>
        cases c with | leaf z =>
        cases x <;> cases y <;> cases z <;> rfl
      hrot := by
        intro a
        cases a with | leaf x =>
        cases x <;> rfl }
  | k + 1 =>
    have P : BTFacts k := btFacts k
    letI : CommRing (BT k) := mkRing k P
    have ha : ∀ x y : BT k, addB x y = x + y := fun _ _ => rfl
    have hm : ∀ x y : BT k, mulB x y = x * y := fun _ _ => rfl
    have hz : (zeroB : BT k) = 0 := rfl
    have ho : (oneB : BT k) = 1 := rfl
    have hg : ∀ x : BT k, rotB x = gB * x :=
      fun x => (P.hrot x).trans (hm _ _)
    { add_assoc := by
        intro x y z
        cases x with | node a b =>
        cases y with | node c d =>
        cases z with | node e f =>
        simp only [addB, node.injEq]
        exact ⟨P.add_assoc a c e, P.add_assoc b d f⟩
      add_comm := by
        intro x y
        cases x with | node a b =>
        cases y with | node c d =>
        simp only [addB, node.injEq]
        exact ⟨P.add_comm a c, P.add_comm b d⟩
      zero_add := by
        intro x
        cases x with | node a b =>
        simp only [zeroB, addB, node.injEq]
        exact ⟨P.zero_add a, P.zero_add b⟩
      add_self := by
        intro x
        cases x with | node a b =>
        simp only [zeroB, addB, node.injEq]
        exact ⟨P.add_self a, P.add_self b⟩
      mul_assoc := by
        intro x y z
        cases x with | node a b =>
        cases y with | node c d =>
        cases z with | node e f =>
        simp only [mulB, node.injEq, ha, hm, hg]
        constructor <;> ring
      mul_comm := by
        intro x y
        cases x with | node a b =>
        cases y with | node c d =>
        simp only [mulB, node.injEq, ha, hm, hg]
        constructor <;> ring
      one_mul := by
        intro x
        cases x with | node a b =>
        simp only [oneB, zeroB, mulB, node.injEq, ha, hm, hg, hz, ho]
        constructor <;> ring
      zero_mul := by
        intro x
        cases x with | node a b =>
        simp only [zeroB, mulB, node.injEq, ha, hm, hg, hz]
        constructor <;> ring
      left_distrib := by
        intro x y z
        cases x with | node a b =>
        cases y with | node c d =>
        cases z with | node e f =>
        simp only [mulB, addB, node.injEq, ha, hm, hg]
        constructor <;> ring
      hrot := by
        intro x
        cases x with | node a b =>
        simp only [gB, rotB, mulB, node.injEq, ha, hm, hg, hz, ho]
        constructor <;> ring }

instance instCommRingBT (k : Nat) : CommRing (BT k) := mkRing k (btFacts k)

/-! ### The level operations in ring notation -/

theorem addB_eq {k : Nat} (a b : BT k) : addB a b = a + b := rfl

theorem mulB_eq {k : Nat} (a b : BT k) : mulB a b = a * b := rfl

theorem zeroB_eq {k : Nat} : (zeroB : BT k) = 0 := rfl

theorem oneB_eq {k : Nat} : (oneB : BT k) = 1 := rfl

theorem rotB_eq {k : Nat} (a : BT k) : rotB a = gB * a :=
  ((btFacts k).hrot a).trans (mulB_eq _ _)

/-- Characteristic two: every element is its own additive inverse. -/
theorem addSelf {k : Nat} (a : BT k) : a + a = 0 :=
  ((addB_eq a a).symm.trans ((btFacts k).add_self a)).trans zeroB_eq

theorem node_add {k : Nat} (a b c d : BT k) :
    node a b + node c d = node (a + c) (b + d) := rfl

theorem node_mul {k : Nat} (a b c d : BT k) :
    node a b * node c d =
      node (a * c + b * d) (a * d + (b * c + gB * (b * d))) := by
  show mulB (node a b) (node c d) = _
  simp only [mulB, rotB_eq, mulB_eq, addB_eq]

theorem node_zero {k : Nat} : (0 : BT (k + 1)) = node 0 0 := rfl

theorem node_one {k : Nat} : (1 : BT (k + 1)) = node 1 0 := rfl

theorem node_g {k : Nat} : (gB : BT (k + 1)) = node 0 1 := rfl

theorem node_rot {k : Nat} (a b : BT k) :
    rotB (node a b) = node b (a + gB * b) := by
  simp only [rotB, rotB_eq, addB_eq]

theorem node_conj {k : Nat} (a b : BT k) :
    conjB (node a b) = node (a + gB * b) b := by
  simp only [conjB, rotB_eq, addB_eq]

theorem node_inv {k : Nat} (a b : BT k) :
    invB (node a b) =
      node (invB (a * (a + gB * b) + b * b) * (a + gB * b))
        (invB (a * (a + gB * b) + b * b) * b) := by
  show
    node (mulB (invB (addB (mulB a (addB a (rotB b))) (mulB b b)))
        (addB a (rotB b)))
      (mulB (invB (addB (mulB a (addB a (rotB b))) (mulB b b))) b) = _
  simp only [rotB_eq, addB_eq, mulB_eq]

theorem bt_one_ne_zero : ∀ {k : Nat}, (1 : BT k) ≠ 0 := by
  intro k
  induction k with
  | zero => decide
  | succ k ih =>
    intro h
    rw [node_one, node_zero] at h
    exact ih (node.inj h).1

/-! ### Conjugation is a ring automorphism -/

theorem conjB_zero {k : Nat} : conjB (0 : BT k) = 0 := by
  cases k with
  | zero => rfl
  | succ k =>
    rw [node_zero, node_conj]
    simp only [node.injEq]
    exact ⟨by ring, trivial⟩

theorem conjB_one {k : Nat} : conjB (1 : BT k) = 1 := by
  cases k with
  | zero => rfl
  | succ k =>
    rw [node_one, node_conj]
    simp only [node.injEq]
    exact ⟨by ring, trivial⟩

theorem conjB_add {k : Nat} (x y : BT k) :
    conjB (x + y) = conjB x + conjB y := by
  cases k with
  | zero =>
    cases x with | leaf u =>
    cases y with | leaf v =>
    cases u <;> cases v <;> rfl
  | succ k =>
    cases x with | node a b =>
    cases y with | node c d =>
    rw [node_add, node_conj, node_conj, node_conj, node_add]
    simp only [node.injEq]
    exact ⟨by ring, trivial⟩

theorem conjB_mul {k : Nat} (x y : BT k) :
    conjB (x * y) = conjB x * conjB y := by
  cases k with
  | zero =>
    cases x with | leaf u =>
    cases y with | leaf v =>
    cases u <;> cases v <;> rfl
  | succ k =>
    cases x with | node a b =>
    cases y with | node c d =>
    have h2 : (1 : BT k) + 1 = 0 := addSelf 1
    rw [node_mul, node_conj, node_conj, node_conj, node_mul]
    simp only [node.injEq]
    constructor
    · ring
    · linear_combination (-(gB * b * d)) * h2

theorem conjB_conjB {k : Nat} (x : BT k) : conjB (conjB x) = x := by
  cases k with
  | zero => cases x with | leaf u => rfl
  | succ k =>
    cases x with | node a b =>
    have h2 : (1 : BT k) + 1 = 0 := addSelf 1
    rw [node_conj, node_conj]
    simp only [node.injEq]
    exact ⟨by linear_combination (gB * b) * h2, trivial⟩

theorem g_mul_conj {k : Nat} : (gB : BT (k + 1)) * conjB gB = 1 := by
  have h2 : (1 : BT k) + 1 = 0 := addSelf 1
  rw [node_g, node_conj, node_mul, node_one]
  simp only [node.injEq]
  constructor
  · ring
  · linear_combination gB * h2

/-! ### The tower is a field: Wiedemann irreducibility and Fan--Paar -/

/-- If every nonzero element has `invB` as a right inverse, the level
has no zero divisors. -/
theorem no_zero_div {k : Nat}
    (hP : ∀ x : BT k, x ≠ 0 → x * invB x = 1) :
    ∀ x y : BT k, x ≠ 0 → x * y = 0 → y = 0 := by
  intro x y hx hxy
  have h1 := hP x hx
  calc y = 1 * y := (one_mul y).symm
    _ = x * invB x * y := by rw [h1]
    _ = invB x * (x * y) := by ring
    _ = invB x * 0 := by rw [hxy]
    _ = 0 := by ring

/-- The Fan--Paar denominator `low·(low + rot high) + high·high` is
nonzero whenever `(low, high)` is not the zero element, provided the
level below is a field whose defining quadratic has no root. -/
theorem delta_ne_zero_aux {k : Nat}
    (hNR : ∀ c : BT k, c * c ≠ gB * c + 1)
    (hP : ∀ x : BT k, x ≠ 0 → x * invB x = 1)
    (a b : BT k) (hab : ¬(a = 0 ∧ b = 0)) :
    a * (a + gB * b) + b * b ≠ 0 := by
  intro h0
  by_cases hb : b = 0
  · subst hb
    have ha : a ≠ 0 := fun h => hab ⟨h, rfl⟩
    have haa : a * a = 0 := by linear_combination h0
    exact ha (no_zero_div hP a a ha haa)
  · have hbi := hP b hb
    have h2 : (1 : BT k) + 1 = 0 := addSelf 1
    apply hNR (a * invB b)
    linear_combination (invB b * invB b) * h0 - (gB * a * invB b) * hbi -
      (b * invB b + 1) * hbi - (gB * a * invB b + 1) * h2

/-- The joint induction: at every level of the tower, the defining
quadratic `X² = gX + 1` has no root, its twin `(gX)² = X + 1` has no
root, and `invB` is a two-sided inverse of every nonzero element. -/
theorem tower_facts : ∀ k : Nat,
    (∀ c : BT k, c * c ≠ gB * c + 1) ∧
    (∀ w : BT k, (gB * w) * (gB * w) ≠ w + 1) ∧
    (∀ x : BT k, x ≠ 0 → x * invB x = 1) := by
  intro k
  induction k with
  | zero =>
    refine ⟨?_, ?_, ?_⟩
    · intro c hc
      cases c with | leaf u =>
      cases u <;> exact absurd hc (by decide)
    · intro w hw
      cases w with | leaf u =>
      cases u <;> exact absurd hw (by decide)
    · intro x hx
      cases x with | leaf u =>
      cases u
      · exact absurd rfl hx
      · decide
  | succ k IH =>
    obtain ⟨NR, NRB, P⟩ := IH
    have h2 : (1 : BT k) + 1 = 0 := addSelf 1
    have h2s : (1 : BT (k + 1)) + 1 = 0 := addSelf 1
    have NR1 : ∀ c : BT (k + 1), c * c ≠ gB * c + 1 := by
      intro c hc
      cases c with | node u v =>
      rw [node_g, node_one, node_mul, node_mul, node_add, node.injEq] at hc
      obtain ⟨hlow, hhigh⟩ := hc
      have hu : u = gB * (v * v) + gB * v := by
        linear_combination (-1 : BT k) * hhigh + (u * v - gB * v) * h2
      apply NRB (v * v + v)
      linear_combination hlow - (u + gB * (v * v) + gB * v) * hu -
        (v * v) * h2
    have P1 : ∀ x : BT (k + 1), x ≠ 0 → x * invB x = 1 := by
      intro x hx
      cases x with | node a b =>
      have hab : ¬(a = 0 ∧ b = 0) := by
        rintro ⟨rfl, rfl⟩
        exact hx node_zero.symm
      have hd : a * (a + gB * b) + b * b ≠ 0 := delta_ne_zero_aux NR P a b hab
      have hdi := P _ hd
      rw [node_inv, node_mul, node_one, node.injEq]
      constructor
      · linear_combination hdi
      · linear_combination
          (a * b * invB (a * (a + gB * b) + b * b) +
            gB * b * b * invB (a * (a + gB * b) + b * b)) * h2
    have NRB1 : ∀ w : BT (k + 1), (gB * w) * (gB * w) ≠ w + 1 := by
      intro w hw
      have hg0 : (gB : BT (k + 1)) ≠ 0 := by
        intro h
        rw [node_g, node_zero] at h
        exact bt_one_ne_zero (node.inj h).2
      have hw0 : w ≠ 0 := by
        rintro rfl
        refine bt_one_ne_zero (k := k + 1) ?_
        linear_combination (-1 : BT (k + 1)) * hw
      have hgw : gB * w ≠ 0 := by
        intro hgw0
        have hw1 : w = 1 := by
          linear_combination (-1 : BT (k + 1)) * hw + (gB * w) * hgw0 - h2s
        rw [hw1, mul_one] at hgw0
        exact hg0 hgw0
      have hz := P1 _ hgw
      set z := invB (gB * w) with hzdef
      have h1c : w * (z * z) + z * z = 1 := by
        linear_combination (-(z * z)) * hw + (gB * w * z + 1) * hz
      have hgc : (gB : BT (k + 1)) * conjB gB = 1 := g_mul_conj
      have h2c : z * conjB gB = w * (z * z) := by
        linear_combination (-(z * conjB gB)) * hz + (w * (z * z)) * hgc
      have hkey : z * z + z * conjB gB + 1 = 0 := by
        linear_combination h2c + h1c + h2s
      have hkey2 := congrArg conjB hkey
      rw [conjB_add, conjB_add, conjB_mul, conjB_mul, conjB_one, conjB_zero,
        conjB_conjB] at hkey2
      apply NR1 (conjB z)
      linear_combination hkey2 - (conjB z * gB + 1) * h2s
    exact ⟨NR1, NRB1, P1⟩

/-- Every nonzero element of every level has `invB` as inverse. -/
theorem invB_mul_self {k : Nat} (x : BT k) (hx : x ≠ 0) :
    x * invB x = 1 :=
  (tower_facts k).2.2 x hx

/-- The Fan--Paar denominator is nonzero for nonzero operands. -/
theorem delta_ne_zero {k : Nat} (a b : BT k) (hab : ¬(a = 0 ∧ b = 0)) :
    a * (a + gB * b) + b * b ≠ 0 :=
  delta_ne_zero_aux (tower_facts k).1 (tower_facts k).2.2 a b hab

/-! ### Bridge: the list-level functions compute the tree operations -/

theorem toList_length {k : Nat} (x : BT k) : (toList x).length = 2 ^ k := by
  induction x with
  | leaf b => rfl
  | node a b iha ihb =>
    simp only [toList, List.length_append, iha, ihb, pow_succ]
    omega

theorem toList_add {k : Nat} (x y : BT k) :
    toList (addB x y) = List.zipWith Bool.xor (toList x) (toList y) := by
  induction x with
  | leaf u =>
    cases y with | leaf v => rfl
  | @node m a b iha ihb =>
    cases y with | node c d =>
    show toList (addB a c) ++ toList (addB b d) =
      List.zipWith Bool.xor (toList a ++ toList b) (toList c ++ toList d)
    rw [iha, ihb, List.zipWith_append _ _ _ _ _
      ((toList_length a).trans (toList_length c).symm)]

theorem add_toList {k : Nat} (x y : BT k) :
    add (toList x) (toList y) = some (toList (addB x y)) := by
  unfold add
  rw [if_pos (by rw [toList_length, toList_length]), toList_add]

theorem rot_toList {k : Nat} (x : BT k) :
    rot (toList x) = some (toList (rotB x)) := by
  induction x with
  | leaf b => simp [rot, toList, rotB]
  | @node m a b iha ihb =>
    have hpos : 0 < 2 ^ m := Nat.pow_pos (by omega)
    have h1 : (toList a).length = 2 ^ m := toList_length a
    have h2 : (toList b).length = 2 ^ m := toList_length b
    rw [rot.eq_def]
    simp only [toList, List.length_append, h1, h2]
    rw [if_neg (by omega), if_pos (by omega), dif_neg (by omega)]
    have hhalf : (2 ^ m + 2 ^ m) / 2 = 2 ^ m := by omega
    simp only [hhalf, List.take_left' h1, List.drop_left' h1, ihb,
      Option.bind_eq_bind, Option.some_bind, add_toList]
    rw [if_neg (by simp only [toList_length]; omega)]
    rw [List.take_of_length_le (le_of_eq h2),
      List.take_of_length_le (le_of_eq (toList_length _))]
    rfl

theorem mul_toList : ∀ {k : Nat} (x y : BT k),
    mul (toList x) (toList y) = some (toList (mulB x y)) := by
  intro k
  induction k with
  | zero =>
    intro x y
    cases x with | leaf u =>
    cases y with | leaf v =>
    simp [mul, toList, mulB]
  | succ k IH =>
    intro x y
    cases x with | node a b =>
    cases y with | node c d =>
    have hpos : 0 < 2 ^ k := Nat.pow_pos (by omega)
    have h1 : (toList a).length = 2 ^ k := toList_length a
    have h2 : (toList b).length = 2 ^ k := toList_length b
    have h3 : (toList c).length = 2 ^ k := toList_length c
    have h4 : (toList d).length = 2 ^ k := toList_length d
    rw [mul.eq_def]
    simp only [toList, List.length_append, h1, h2, h3, h4]
    rw [if_pos trivial, if_neg (by omega), if_pos (by omega),
      dif_neg (by omega)]
    have hhalf : (2 ^ k + 2 ^ k) / 2 = 2 ^ k := by omega
    simp only [hhalf, List.take_left' h1, List.drop_left' h1,
      List.take_left' h3, List.drop_left' h3, IH,
      Option.bind_eq_bind, Option.some_bind, add_toList, rot_toList]
    rw [if_neg (by simp only [toList_length]; omega)]
    rw [List.take_of_length_le (le_of_eq (toList_length _)),
      List.take_of_length_le (le_of_eq (toList_length _))]
    rfl

/-- A bitstring contains a set bit exactly when its tree is nonzero. -/
theorem any_toList {k : Nat} (x : BT k) :
    (toList x).any id = true ↔ x ≠ 0 := by
  induction x with
  | leaf u =>
    cases u <;> simp [toList] <;> decide
  | @node m a b iha ihb =>
    show (toList a ++ toList b).any id = true ↔ _
    rw [List.any_append, node_zero]
    simp only [Bool.or_eq_true, iha, ihb, ne_eq, node.injEq, not_and]
    tauto

theorem inv_toList : ∀ {k : Nat} (x : BT k), x ≠ 0 →
    inv (toList x) = some (toList (invB x)) := by
  intro k
  induction k with
  | zero =>
    intro x hx
    cases x with | leaf u =>
    cases u
    · exact absurd rfl hx
    · simp [inv, toList, invB]
  | succ k IH =>
    intro x hx
    cases x with | node a b =>
    have hpos : 0 < 2 ^ k := Nat.pow_pos (by omega)
    have h1 : (toList a).length = 2 ^ k := toList_length a
    have h2 : (toList b).length = 2 ^ k := toList_length b
    have hδ : addB (mulB a (addB a (rotB b))) (mulB b b) ≠ 0 := by
      have : addB (mulB a (addB a (rotB b))) (mulB b b) =
          a * (a + gB * b) + b * b := by
        simp only [rotB_eq, addB_eq, mulB_eq]
      rw [this]
      refine delta_ne_zero a b ?_
      rintro ⟨rfl, rfl⟩
      exact hx node_zero.symm
    rw [inv.eq_def]
    rw [if_pos ((any_toList (node a b)).mpr hx)]
    simp only [toList, List.length_append, h1, h2]
    rw [if_neg (by omega), if_pos (by omega)]
    have hhalf : (2 ^ k + 2 ^ k) / 2 = 2 ^ k := by omega
    simp only [hhalf, List.take_left' h1, List.drop_left' h1, rot_toList,
      add_toList, mul_toList]
    split
    next h3 =>
      simp only [List.length_append, h1, h2, hhalf, List.take_left' h1,
        mul_toList] at h3
      exact Option.noConfusion h3
    next p1 h3 =>
      simp only [List.length_append, h1, h2, hhalf, List.take_left' h1,
        mul_toList, Option.some.injEq] at h3
      subst h3
      split
      next h5 =>
        simp only [add_toList] at h5
        exact Option.noConfusion h5
      next delta h5 =>
        simp only [add_toList, Option.some.injEq] at h5
        subst h5
        simp only [IH _ hδ, mul_toList]
        rw [if_neg (by simp only [toList_length]; omega)]
        rw [List.take_of_length_le (le_of_eq (toList_length _)),
          List.take_of_length_le (le_of_eq (toList_length _))]

/-- Every length-`2 ^ k` bitstring is the flattening of its tree. -/
theorem toList_ofList : ∀ (k : Nat) (l : List Bool),
    l.length = 2 ^ k → toList (ofList k l) = l := by
  intro k
  induction k with
  | zero =>
    intro l hl
    match l, hl with
    | [b], _ => rfl
  | succ k IH =>
    intro l hl
    have hpos : 0 < 2 ^ k := Nat.pow_pos (by omega)
    show toList (ofList k (l.take (2 ^ k))) ++
        toList (ofList k (l.drop (2 ^ k))) = l
    rw [IH _ (by simp only [List.length_take]; rw [pow_succ] at hl; omega),
      IH _ (by simp only [List.length_drop]; rw [pow_succ] at hl; omega),
      List.take_append_drop]

/-! ### The distinguished constant elements as bitstrings -/

/-- The multiplicative identity of length `n`: `[1, 0, 0, …, 0]`. -/
def oneList (n : Nat) : List Bool :=
  true :: List.replicate (n - 1) false

theorem toList_zero : ∀ {k : Nat},
    toList (0 : BT k) = List.replicate (2 ^ k) false := by
  intro k
  induction k with
  | zero => rfl
  | succ k ih =>
    have h : 2 ^ (k + 1) = 2 ^ k + 2 ^ k := by rw [pow_succ]; omega
    show toList (0 : BT k) ++ toList (0 : BT k) = _
    rw [ih, h, List.replicate_add]

theorem toList_one : ∀ {k : Nat}, toList (1 : BT k) = oneList (2 ^ k) := by
  intro k
  induction k with
  | zero => rfl
  | succ k ih =>
    have hpos : 0 < 2 ^ k := Nat.pow_pos (by omega)
    have h : 2 ^ k - 1 + 2 ^ k = 2 ^ (k + 1) - 1 := by rw [pow_succ]; omega
    show toList (1 : BT k) ++ toList (0 : BT k) = _
    rw [ih, toList_zero]
    simp only [oneList, List.cons_append, ← List.replicate_add, h]

/-! ## The claims -/

/-- C1: for every power-of-two length `n` and every nonzero element `a`
of length `n`, `invert` succeeds and `multiply(a, invert(a))` is the
multiplicative identity `[1, 0, …, 0]` of length `n`. -/
theorem claim_C1 (k : Nat) (a : List Bool) (hlen : a.length = 2 ^ k)
    (hnz : a.any id = true) :
    ∃ b : List Bool, inv a = some b ∧ mul a b = some (oneList (2 ^ k)) := by
  obtain ⟨x, rfl⟩ : ∃ x : BT k, toList x = a := ⟨ofList k a, toList_ofList k a hlen⟩
  have hx : x ≠ 0 := (any_toList x).mp hnz
  refine ⟨toList (invB x), inv_toList x hx, ?_⟩
  rw [mul_toList]
  congr 1
  have : mulB x (invB x) = 1 := by
    rw [mulB_eq]
    exact invB_mul_self _ hx
  rw [this, toList_one]

/-- C1 witness: the length-2 element `[0, 1]` (the generator of GF(4)). -/
theorem claim_C1_witness :
    ([false, true].length = 2 ^ 1 ∧ [false, true].any id = true) ∧
    ∃ b : List Bool, inv [false, true] = some b ∧
      mul [false, true] b = some (oneList (2 ^ 1)) :=
  ⟨⟨by decide, by decide⟩, claim_C1 1 [false, true] (by decide) (by decide)⟩

/-- C7: `multiply` is commutative on operands of equal power-of-two
length, at every tower level. -/
theorem claim_C7 (k : Nat) (a b : List Bool) (ha : a.length = 2 ^ k)
    (hb : b.length = 2 ^ k) : mul a b = mul b a := by
  obtain ⟨x, rfl⟩ : ∃ x : BT k, toList x = a := ⟨ofList k a, toList_ofList k a ha⟩
  obtain ⟨y, rfl⟩ : ∃ y : BT k, toList y = b := ⟨ofList k b, toList_ofList k b hb⟩
  rw [mul_toList, mul_toList, (btFacts k).mul_comm]

/-- C7 witness: a concrete length-2 pair. -/
theorem claim_C7_witness :
    ([false, true].length = 2 ^ 1 ∧ [true, true].length = 2 ^ 1) ∧
    mul [false, true] [true, true] = mul [true, true] [false, true] :=
  ⟨⟨by decide, by decide⟩, claim_C7 1 [false, true] [true, true]
    (by decide) (by decide)⟩

/-- C8: `rotate` is additive: rotating the sum of two equal power-of-two
length elements gives the sum of their rotations. -/
theorem claim_C8 (k : Nat) (a b : List Bool) (ha : a.length = 2 ^ k)
    (hb : b.length = 2 ^ k) :
    ∃ s rs ra rb : List Bool,
      add a b = some s ∧ rot s = some rs ∧ rot a = some ra ∧
      rot b = some rb ∧ add ra rb = some rs := by
  obtain ⟨x, rfl⟩ : ∃ x : BT k, toList x = a := ⟨ofList k a, toList_ofList k a ha⟩
  obtain ⟨y, rfl⟩ : ∃ y : BT k, toList y = b := ⟨ofList k b, toList_ofList k b hb⟩
  have hlin : rotB (addB x y) = addB (rotB x) (rotB y) := by
    simp only [rotB_eq, addB_eq]
    ring
  refine ⟨toList (addB x y), toList (rotB (addB x y)),
    toList (rotB x), toList (rotB y), add_toList x y, rot_toList _,
    rot_toList x, rot_toList y, ?_⟩
  rw [add_toList, hlin]

/-- C8 witness: a concrete length-2 pair. -/
theorem claim_C8_witness :
    ([true, false].length = 2 ^ 1 ∧ [true, true].length = 2 ^ 1) ∧
    ∃ s rs ra rb : List Bool,
      add [true, false] [true, true] = some s ∧ rot s = some rs ∧
      rot [true, false] = some ra ∧ rot [true, true] = some rb ∧
      add ra rb = some rs :=
  ⟨⟨by decide, by decide⟩, claim_C8 1 [true, false] [true, true]
    (by decide) (by decide)⟩

/-- C9: on equal-length operands `add` returns the pointwise XOR; on
unequal-length operands it is a fatal assertion failure (modelled
`none`), not a recoverable error value. -/
theorem claim_C9 (a b : List Bool) :
    (a.length = b.length → add a b = some (List.zipWith Bool.xor a b)) ∧
    (a.length ≠ b.length → add a b = none) := by
  constructor <;> intro h <;> simp [add, h]

/-- C9 witness: concrete equal-length and unequal-length pairs. -/
theorem claim_C9_witness :
    add [true] [false] = some [true] ∧ add [true] [false, true] = none :=
  ⟨((claim_C9 [true] [false]).1 (by decide)).trans (by decide),
    (claim_C9 [true] [false, true]).2 (by decide)⟩

/-- C10: `add` succeeds exactly on operand pairs of equal length — any
equal length, power of two or not; unequal lengths are its only failure
condition. -/
theorem claim_C10 (a b : List Bool) :
    (∃ c, add a b = some c) ↔ a.length = b.length := by
  unfold add
  by_cases h : a.length = b.length <;> simp [h]

/-- C2: `multiply` is the AND of the bits at length 1, and at length
`2m` combines the four half-length recursive products `ac`, `ad`, `bc`,
`bd` as low half `ac + bd` and high half `ad + (bc + Rotate(bd))`. -/
theorem claim_C2 :
    (∀ x y : Bool, mul [x] [y] = some [x && y]) ∧
    (∀ (k : Nat) (a b : List Bool),
      a.length = 2 ^ (k + 1) → b.length = 2 ^ (k + 1) →
      ∃ ac ad bc bd rbd lo mid hi : List Bool,
        mul (a.take (2 ^ k)) (b.take (2 ^ k)) = some ac ∧
        mul (a.take (2 ^ k)) (b.drop (2 ^ k)) = some ad ∧
        mul (a.drop (2 ^ k)) (b.take (2 ^ k)) = some bc ∧
        mul (a.drop (2 ^ k)) (b.drop (2 ^ k)) = some bd ∧
        add ac bd = some lo ∧
        rot bd = some rbd ∧
        add bc rbd = some mid ∧
        add ad mid = some hi ∧
        mul a b = some (lo ++ hi)) := by
  constructor
  · intro x y
    rw [mul.eq_def]
    rfl
  · intro k a b ha hb
    obtain ⟨x, rfl⟩ : ∃ x : BT (k + 1), toList x = a :=
      ⟨ofList _ a, toList_ofList _ a ha⟩
    obtain ⟨y, rfl⟩ : ∃ y : BT (k + 1), toList y = b :=
      ⟨ofList _ b, toList_ofList _ b hb⟩
    cases x with | node A B =>
    cases y with | node C D =>
    have ta : (toList (node A B)).take (2 ^ k) = toList A :=
      List.take_left' (toList_length A)
    have da : (toList (node A B)).drop (2 ^ k) = toList B :=
      List.drop_left' (toList_length A)
    have tb : (toList (node C D)).take (2 ^ k) = toList C :=
      List.take_left' (toList_length C)
    have db : (toList (node C D)).drop (2 ^ k) = toList D :=
      List.drop_left' (toList_length C)
    refine ⟨toList (mulB A C), toList (mulB A D), toList (mulB B C),
      toList (mulB B D), toList (rotB (mulB B D)),
      toList (addB (mulB A C) (mulB B D)),
      toList (addB (mulB B C) (rotB (mulB B D))),
      toList (addB (mulB A D) (addB (mulB B C) (rotB (mulB B D)))),
      ?_, ?_, ?_, ?_, ?_, ?_, ?_, ?_, ?_⟩
    · rw [ta, tb]; exact mul_toList A C
    · rw [ta, db]; exact mul_toList A D
    · rw [da, tb]; exact mul_toList B C
    · rw [da, db]; exact mul_toList B D
    · exact add_toList _ _
    · exact rot_toList _
    · exact add_toList _ _
    · exact add_toList _ _
    · rw [mul_toList]
      rfl

/-- C2 witness: the generator and `1 + generator` in GF(4). -/
theorem claim_C2_witness :
    ([false, true].length = 2 ^ (0 + 1) ∧ [true, true].length = 2 ^ (0 + 1)) ∧
    ∃ ac ad bc bd rbd lo mid hi : List Bool,
      mul ([false, true].take (2 ^ 0)) ([true, true].take (2 ^ 0)) = some ac ∧
      mul ([false, true].take (2 ^ 0)) ([true, true].drop (2 ^ 0)) = some ad ∧
      mul ([false, true].drop (2 ^ 0)) ([true, true].take (2 ^ 0)) = some bc ∧
      mul ([false, true].drop (2 ^ 0)) ([true, true].drop (2 ^ 0)) = some bd ∧
      add ac bd = some lo ∧
      rot bd = some rbd ∧
      add bc rbd = some mid ∧
      add ad mid = some hi ∧
      mul [false, true] [true, true] = some (lo ++ hi) :=
  ⟨⟨by decide, by decide⟩,
    claim_C2.2 0 [false, true] [true, true] (by decide) (by decide)⟩

/-- C6: `rotate` is the identity at length 1, and at length `2m` the
result is the high half followed by `low + Rotate(high)`. -/
theorem claim_C6 :
    (∀ b : Bool, rot [b] = some [b]) ∧
    (∀ (k : Nat) (a : List Bool), a.length = 2 ^ (k + 1) →
      ∃ rh hi : List Bool,
        rot (a.drop (2 ^ k)) = some rh ∧
        add (a.take (2 ^ k)) rh = some hi ∧
        rot a = some (a.drop (2 ^ k) ++ hi)) := by
  constructor
  · intro b
    rw [rot.eq_def]
    rfl
  · intro k a ha
    obtain ⟨x, rfl⟩ : ∃ x : BT (k + 1), toList x = a :=
      ⟨ofList _ a, toList_ofList _ a ha⟩
    cases x with | node A B =>
    have ta : (toList (node A B)).take (2 ^ k) = toList A :=
      List.take_left' (toList_length A)
    have da : (toList (node A B)).drop (2 ^ k) = toList B :=
      List.drop_left' (toList_length A)
    refine ⟨toList (rotB B), toList (addB A (rotB B)), ?_, ?_, ?_⟩
    · rw [da]; exact rot_toList B
    · rw [ta]; exact add_toList _ _
    · rw [rot_toList, da]
      rfl

/-- C6 witness: a concrete length-2 rotation. -/
theorem claim_C6_witness :
    ([true, true].length = 2 ^ (0 + 1)) ∧
    ∃ rh hi : List Bool,
      rot ([true, true].drop (2 ^ 0)) = some rh ∧
      add ([true, true].take (2 ^ 0)) rh = some hi ∧
      rot [true, true] = some ([true, true].drop (2 ^ 0) ++ hi) :=
  ⟨by decide, claim_C6.2 0 [true, true] (by decide)⟩

/-- C4: for a nonzero element of length `2m`, the Fan--Paar denominator
`delta` computed by `inv` is a nonzero element, so the zero assertion in
the recursive `inv` call never fires, and `inv` itself succeeds. -/
theorem claim_C4 (k : Nat) (a : List Bool)
    (hlen : a.length = 2 ^ (k + 1)) (hnz : a.any id = true) :
    ∃ rh s p1 p2 delta : List Bool,
      rot (a.drop (2 ^ k)) = some rh ∧
      add (a.take (2 ^ k)) rh = some s ∧
      mul (a.take (2 ^ k)) s = some p1 ∧
      mul (a.drop (2 ^ k)) (a.drop (2 ^ k)) = some p2 ∧
      add p1 p2 = some delta ∧
      delta.any id = true ∧
      inv delta ≠ none ∧
      inv a ≠ none := by
  obtain ⟨x, rfl⟩ : ∃ x : BT (k + 1), toList x = a :=
    ⟨ofList _ a, toList_ofList _ a hlen⟩
  cases x with | node A B =>
  have hx : node A B ≠ 0 := (any_toList _).mp hnz
  have ta : (toList (node A B)).take (2 ^ k) = toList A :=
    List.take_left' (toList_length A)
  have da : (toList (node A B)).drop (2 ^ k) = toList B :=
    List.drop_left' (toList_length A)
  have hδB : addB (mulB A (addB A (rotB B))) (mulB B B) ≠ 0 := by
    have he : addB (mulB A (addB A (rotB B))) (mulB B B) =
        A * (A + gB * B) + B * B := by
      simp only [rotB_eq, addB_eq, mulB_eq]
    rw [he]
    refine delta_ne_zero A B ?_
    rintro ⟨rfl, rfl⟩
    exact hx node_zero.symm
  refine ⟨toList (rotB B), toList (addB A (rotB B)),
    toList (mulB A (addB A (rotB B))), toList (mulB B B),
    toList (addB (mulB A (addB A (rotB B))) (mulB B B)),
    ?_, ?_, ?_, ?_, ?_, ?_, ?_, ?_⟩
  · rw [da]; exact rot_toList B
  · rw [ta]; exact add_toList _ _
  · rw [ta]; exact mul_toList _ _
  · rw [da]; exact mul_toList _ _
  · exact add_toList _ _
  · exact (any_toList _).mpr hδB
  · rw [inv_toList _ hδB]; simp
  · rw [inv_toList _ hx]; simp

/-- C4 witness: the length-4 element `[0, 0, 1, 0]`. -/
theorem claim_C4_witness :
    ([false, false, true, false].length = 2 ^ (1 + 1) ∧
      [false, false, true, false].any id = true) ∧
    ∃ rh s p1 p2 delta : List Bool,
      rot ([false, false, true, false].drop (2 ^ 1)) = some rh ∧
      add ([false, false, true, false].take (2 ^ 1)) rh = some s ∧
      mul ([false, false, true, false].take (2 ^ 1)) s = some p1 ∧
      mul ([false, false, true, false].drop (2 ^ 1))
        ([false, false, true, false].drop (2 ^ 1)) = some p2 ∧
      add p1 p2 = some delta ∧
      delta.any id = true ∧
      inv delta ≠ none ∧
      inv [false, false, true, false] ≠ none :=
  ⟨⟨by decide, by decide⟩,
    claim_C4 1 [false, false, true, false] (by decide) (by decide)⟩

/-- C3: `invert` returns the operand at length 1, and at length `2m`
computes `delta = low·(low + Rotate(high)) + high·high`, recursively
inverts it, and returns `delta_inv·(low + Rotate(high))` as the low half
and `delta_inv·high` as the high half. -/
theorem claim_C3 :
    (inv [true] = some [true]) ∧
    (∀ (k : Nat) (a : List Bool),
      a.length = 2 ^ (k + 1) → a.any id = true →
      ∃ rh s p1 p2 delta dinv rlow rhigh : List Bool,
        rot (a.drop (2 ^ k)) = some rh ∧
        add (a.take (2 ^ k)) rh = some s ∧
        mul (a.take (2 ^ k)) s = some p1 ∧
        mul (a.drop (2 ^ k)) (a.drop (2 ^ k)) = some p2 ∧
        add p1 p2 = some delta ∧
        inv delta = some dinv ∧
        mul dinv (a.drop (2 ^ k)) = some rhigh ∧
        mul dinv s = some rlow ∧
        inv a = some (rlow ++ rhigh)) := by
  constructor
  · rw [inv.eq_def]
    rfl
  · intro k a ha hnz
    obtain ⟨x, rfl⟩ : ∃ x : BT (k + 1), toList x = a :=
      ⟨ofList _ a, toList_ofList _ a ha⟩
    cases x with | node A B =>
    have hx : node A B ≠ 0 := (any_toList _).mp hnz
    have ta : (toList (node A B)).take (2 ^ k) = toList A :=
      List.take_left' (toList_length A)
    have da : (toList (node A B)).drop (2 ^ k) = toList B :=
      List.drop_left' (toList_length A)
    have hδB : addB (mulB A (addB A (rotB B))) (mulB B B) ≠ 0 := by
      have he : addB (mulB A (addB A (rotB B))) (mulB B B) =
          A * (A + gB * B) + B * B := by
        simp only [rotB_eq, addB_eq, mulB_eq]
      rw [he]
      refine delta_ne_zero A B ?_
      rintro ⟨rfl, rfl⟩
      exact hx node_zero.symm
    refine ⟨toList (rotB B), toList (addB A (rotB B)),
      toList (mulB A (addB A (rotB B))), toList (mulB B B),
      toList (addB (mulB A (addB A (rotB B))) (mulB B B)),
      toList (invB (addB (mulB A (addB A (rotB B))) (mulB B B))),
      toList (mulB (invB (addB (mulB A (addB A (rotB B))) (mulB B B)))
        (addB A (rotB B))),
      toList (mulB (invB (addB (mulB A (addB A (rotB B))) (mulB B B))) B),
      ?_, ?_, ?_, ?_, ?_, ?_, ?_, ?_, ?_⟩
    · rw [da]; exact rot_toList B
    · rw [ta]; exact add_toList _ _
    · rw [ta]; exact mul_toList _ _
    · rw [da]; exact mul_toList _ _
    · exact add_toList _ _
    · exact inv_toList _ hδB
    · rw [da]; exact mul_toList _ _
    · exact mul_toList _ _
    · rw [inv_toList _ hx]
      rfl

/-- C3 witness: the length-4 element `[0, 0, 1, 0]`. -/
theorem claim_C3_witness :
    ([false, false, true, false].length = 2 ^ (1 + 1) ∧
      [false, false, true, false].any id = true) ∧
    ∃ rh s p1 p2 delta dinv rlow rhigh : List Bool,
      rot ([false, false, true, false].drop (2 ^ 1)) = some rh ∧
      add ([false, false, true, false].take (2 ^ 1)) rh = some s ∧
      mul ([false, false, true, false].take (2 ^ 1)) s = some p1 ∧
      mul ([false, false, true, false].drop (2 ^ 1))
        ([false, false, true, false].drop (2 ^ 1)) = some p2 ∧
      add p1 p2 = some delta ∧
      inv delta = some dinv ∧
      mul dinv ([false, false, true, false].drop (2 ^ 1)) = some rhigh ∧
      mul dinv s = some rlow ∧
      inv [false, false, true, false] = some (rlow ++ rhigh) :=
  ⟨⟨by decide, by decide⟩,
    claim_C3.2 1 [false, false, true, false] (by decide) (by decide)⟩

end BT

/-! ## Claim C5: the error channel of inversion at zero -/

/-- Evaluating `1/0` in the embedded evaluator: the division path hands
the zero divisor straight to `inv`, whose zero assertion panics, so the
whole evaluation is `none` (the panic outcome), not an `Except.error`. -/
theorem parse_one_div_zero :
    parseExpression 6 ("1/0".toList) 0 Option.none = Option.none := by
  have hinv : inv [false] = none := by
    rw [inv.eq_def]
    rfl
  have hstep : parseExpression 6 ("1/0".toList) 0 Option.none =
      (match parseTerm 5 ("1/0".toList) 0 Option.none with
        | none => none
        | some (Except.error e) => some (Except.error e)
        | some (Except.ok (v, p)) =>
          exprLoop 5 ("1/0".toList) p Option.none v) := rfl
  have e1 : parseTerm 5 ("1/0".toList) 0 Option.none =
      (match inv [false] with
        | none => none
        | some ir =>
          match mul [true] ir with
          | none => none
          | some v2 => termLoop 3 ("1/0".toList) 3 Option.none v2) := rfl
  rw [hstep, e1, hinv]

/-- C5 (counterexample): invert on the zero element `[false]` is the
panic outcome `none`, and so is the whole evaluation of `1/0`; the
failure is not surfaced as a recoverable `Except.error` value, contrary
to the claim. -/
theorem claim_C5_counterexample :
    inv [false] = Option.none ∧
    parseExpression 6 ("1/0".toList) 0 Option.none = Option.none :=
  ⟨by rw [inv.eq_def]; rfl, parse_one_div_zero⟩

/-- C5 (amended): calling invert on an all-zero element trips the
nonzero assertion and panics — a fatal failure, modelled `none` — and
the evaluator passes a zero divisor to invert unchecked, so evaluating
`1/0` aborts with that panic instead of producing an error message. -/
theorem claim_C5_amended_thm :
    (∀ l : List Bool, l.any id = false → inv l = Option.none) ∧
    parseExpression 6 ("1/0".toList) 0 Option.none = Option.none := by
  refine ⟨?_, parse_one_div_zero⟩
  intro l h
  rw [inv.eq_def, if_neg]
  simp [h]

/-- C5 witness for the amended claim, at the zero element `[false]`. -/
theorem claim_C5_amended_witness :
    ([false].any id = false) ∧ inv [false] = Option.none :=
  ⟨by decide, claim_C5_amended_thm.1 [false] (by decide)⟩

end Wiedemann
